import Mathlib

/-!
Shallow embedding, in Lean 4, of the result-normalization layer of
`src/idp_app/app_main.py` (an intelligent-document-processing review UI).
Python values flowing through that layer are JSON-like: strings, numbers,
booleans, `None`, lists, and string-keyed mappings.  Numbers are modelled by
rationals.  Python functions that can raise are modelled as `Option`-valued
functions, `none` standing for an uncaught exception; total Python code is
modelled by total Lean functions.
-/

/-- JSON-like Python value.  `dict` keeps the entries in insertion order,
matching Python 3 dictionaries; well-formed values have no duplicate keys. -/
inductive JValue where
  | null : JValue
  | bool : Bool → JValue
  | num : ℚ → JValue
  | str : String → JValue
  | list : List JValue → JValue
  | dict : List (String × JValue) → JValue
deriving Repr

/-- Python truthiness (`bool(v)`) of a JSON-like value. -/
def truthy : JValue → Bool
  | .null => false
  | .bool b => b
  | .num q => decide (q ≠ 0)
  | .str s => decide (s.length ≠ 0)
  | .list xs => !xs.isEmpty
  | .dict kvs => !kvs.isEmpty

/-- First entry of an association list with the given key, if any
(Python dictionaries have unique keys, so this is the entry). -/
def findEntry (kvs : List (String × JValue)) (k : String) : Option JValue :=
  match kvs.find? (fun kv => decide (kv.1 = k)) with
  | some kv => some kv.2
  | none => none

/-- Python `d.get(k)`: the stored value, or `None` when the key is absent. -/
def dGet (kvs : List (String × JValue)) (k : String) : JValue :=
  match findEntry kvs k with
  | some v => v
  | none => .null

/-- Python `k in d` on a dictionary. -/
def hasKey (kvs : List (String × JValue)) (k : String) : Bool :=
  kvs.any (fun kv => decide (kv.1 = k))

/-- Python `a or b`: `a` when truthy, else `b`. -/
def pyOr (a b : JValue) : JValue :=
  if truthy a then a else b

/-- Left-to-right, fail-fast effectful map over a list, modelling a Python
list comprehension whose body may raise (`none` = exception). -/
def mapOpt (f : α → Option β) : List α → Option (List β)
  | [] => some []
  | x :: xs =>
    match f x, mapOpt f xs with
    | some y, some ys => some (y :: ys)
    | _, _ => none

/-- Python `str.strip()` on a character list: drop whitespace at both ends. -/
def pyStrip (l : List Char) : List Char :=
  ((l.dropWhile Char.isWhitespace).reverse.dropWhile Char.isWhitespace).reverse

/-- Python `s.split(sep)` for a one-character separator: split at every
occurrence, never merging neighbouring separators (`"a,,b" ↦ ["a","","b"]`). -/
def splitOnChar (sep : Char) : List Char → List (List Char)
  | [] => [[]]
  | c :: rest =>
    let r := splitOnChar sep rest
    if c = sep then [] :: r
    else
      match r with
      | [] => [[c]]
      | h :: t => (c :: h) :: t

/-- Value of a list of decimal digits. -/
def digitsToNat (l : List Char) : ℕ :=
  l.foldl (fun a c => a * 10 + (c.toNat - 48)) 0

/-- Leading Python sign: strips one `+` or `-`; `true` means negative. -/
def pySign : List Char → Bool × List Char
  | '-' :: r => (true, r)
  | '+' :: r => (false, r)
  | l => (false, l)

/-- Mantissa of a Python float literal: digits with an optional decimal
point, at least one digit overall (`"1."`, `".5"`, `"12"` are accepted). -/
def parseMant (l : List Char) : Option ℚ :=
  let ip := l.takeWhile Char.isDigit
  let rest := l.dropWhile Char.isDigit
  match rest with
  | [] => if ip = [] then none else some (digitsToNat ip : ℚ)
  | '.' :: fp =>
    if fp.all Char.isDigit ∧ (ip ≠ [] ∨ fp ≠ []) then
      some ((digitsToNat ip : ℚ) + (digitsToNat fp : ℚ) / ((10 : ℚ) ^ fp.length))
    else none
  | _ => none

/-- Exponent part of a Python float literal (after the `e`). -/
def parseExpPart (l : List Char) : Option ℤ :=
  let (neg, r) := pySign l
  if r ≠ [] ∧ r.all Char.isDigit then
    some (if neg then -(digitsToNat r : ℤ) else (digitsToNat r : ℤ))
  else none

/-- Python `float(tok)` on an already-stripped token, modelled over ℚ.
Handles sign, decimal mantissa and exponent; `inf`, `nan` and underscore
separators are outside the model (they never occur in coordinate data). -/
def pyFloat? (l : List Char) : Option ℚ :=
  let (neg, r) := pySign l
  let mant := r.takeWhile (fun c => decide (c ≠ 'e' ∧ c ≠ 'E'))
  let rest := r.dropWhile (fun c => decide (c ≠ 'e' ∧ c ≠ 'E'))
  match parseMant mant with
  | none => none
  | some mv =>
    match rest with
    | [] => some (if neg then -mv else mv)
    | _ :: ex =>
      match parseExpPart ex with
      | none => none
      | some e =>
        let v := mv * (10 : ℚ) ^ e
        some (if neg then -v else v)

/-- Python `int(q)` on a float: truncation toward zero. -/
def pyTrunc (q : ℚ) : ℤ :=
  if q < 0 then -((-q).floor) else q.floor

/-- Python `int(tok)` on a string: optional sign and decimal digits only
(so `int("2.5")` fails), with surrounding whitespace stripped. -/
def pyIntChars? (l : List Char) : Option ℤ :=
  match pyStrip l with
  | '-' :: ds => if ds ≠ [] ∧ ds.all Char.isDigit then some (-(digitsToNat ds : ℤ)) else none
  | '+' :: ds => if ds ≠ [] ∧ ds.all Char.isDigit then some (digitsToNat ds : ℤ) else none
  | ds => if ds ≠ [] ∧ ds.all Char.isDigit then some (digitsToNat ds : ℤ) else none

/-- Python `int(v)` on a JSON-like value; `none` models the `TypeError` /
`ValueError` raised on `None`, lists, mappings and non-integral strings. -/
def pyIntJ : JValue → Option ℤ
  | .num q => some (pyTrunc q)
  | .bool b => some (if b then 1 else 0)
  | .str s => pyIntChars? s.toList
  | _ => none

/-- Python `float(v)` on a JSON-like value; `none` models the exception on
`None`, lists, mappings and unparseable strings. -/
def pyFloatJ : JValue → Option ℚ
  | .num q => some q
  | .bool b => some (if b then 1 else 0)
  | .str s => pyFloat? (pyStrip s.toList)
  | _ => none

/-- Normalized page region: `kind` tag (set only by the source-string
parser), 1-based page number, optional polygon, axis-aligned bounding box. -/
structure Region where
  kind : Option Char
  pageNumber : ℤ
  polygon : Option (List ℚ)
  bbox : ℚ × ℚ × ℚ × ℚ
deriving DecidableEq, Repr

/-- Elements of a list at even positions (Python `l[0::2]`). -/
def evens : List ℚ → List ℚ
  | [] => []
  | [x] => [x]
  | x :: _ :: rest => x :: evens rest

/-- Elements of a list at odd positions (Python `l[1::2]`). -/
def odds : List ℚ → List ℚ
  | [] => []
  | [_] => []
  | _ :: y :: rest => y :: odds rest

/-- `_coerce_polygon_to_bbox`: axis-aligned min/max over x and y
coordinates taken independently.  `none` models the `ValueError` Python's
`min`/`max` raise on an empty polygon (never reached by the callers). -/
def coerce_polygon_to_bbox (polygon : List ℚ) : Option (ℚ × ℚ × ℚ × ℚ) :=
  match evens polygon, odds polygon with
  | x :: xs, y :: ys =>
    some (xs.foldl min x, ys.foldl min y, xs.foldl max x, ys.foldl max y)
  | _, _ => none

/-- Comma-separated tokens of the parenthesized body of an (already
stripped) source string: the slice between the first `(` and the final
character, split on commas, each token stripped, empty tokens dropped. -/
def cuPartsOf (cs : List Char) : List (List Char) :=
  ((splitOnChar ',' (((cs.dropWhile (fun c => decide (c ≠ '('))).drop 1).dropLast)).map
      pyStrip).filter (fun t => decide (t ≠ []))

/-- `parse_cu_source_string`: parse a compact provenance reference of the
form `kind(page, x1,y1,...,x4,y4[,...])` into a `Region`; `none` is the
"no match" result for malformed input (the Python function catches its own
conversion errors, so it never raises). -/
def parse_cu_source_string (source : String) : Option Region :=
  let cs := pyStrip source.toList
  if cs.length < 4 ∨ '(' ∉ cs ∨ cs.getLast? ≠ some ')' then none
  else
    match cs.head? with
    | none => none
    | some kind =>
      let parts := cuPartsOf cs
      if parts.length < 9 then none
      else
        match parts with
        | [] => none
        | p0 :: rest =>
          match pyFloat? p0, mapOpt pyFloat? rest with
          | some pq, some coords =>
            if coords.length < 8 then none
            else
              let coords8 := coords.take 8
              match coerce_polygon_to_bbox coords8 with
              | some b => some ⟨some kind, pyTrunc pq, some coords8, b⟩
              | none => none
          | _, _ => none

/-- Numeric coordinate value.  Coordinate data is modelled as numeric
(per the data model); a non-numeric coordinate is treated as an error. -/
def jNum? : JValue → Option ℚ
  | .num q => some q
  | _ => none

/-- Coerce a list of JSON-like coordinate values to rationals. -/
def polyToRats (xs : List JValue) : Option (List ℚ) :=
  mapOpt jNum? xs

/-- Python `poly and isinstance(poly, list) and len(poly) >= 8`. -/
def polyCond : JValue → Bool
  | .list pl => decide (8 ≤ pl.length)
  | _ => false

/-- Python `bbox and isinstance(bbox, list) and len(bbox) == 4`. -/
def bbCond : JValue → Bool
  | .list bl => decide (bl.length = 4)
  | _ => false

/-- Body of the `for br in bounding_regions` loop of
`_normalize_regions_from_source`: one bounding-region element, with the
enclosing object's page number as fallback.  `none` models an uncaught
exception (`.get` on a non-mapping element, or `int(p)` on `None`). -/
def processBr (pageTop : JValue) (br : JValue) : Option (List Region) :=
  match br with
  | .dict bk =>
    let p := pyOr (dGet bk "pageNumber") (pyOr (dGet bk "page") pageTop)
    let poly := pyOr (dGet bk "polygon") (dGet bk "points")
    let bb := dGet bk "boundingBox"
    if polyCond poly then
      match poly with
      | .list pl => do
        let prs ← polyToRats pl
        let b ← coerce_polygon_to_bbox prs
        let pn ← pyIntJ p
        pure [⟨none, pn, some prs, b⟩]
      | _ => none
    else if bbCond bb then
      match bb with
      | .list bl => do
        let brats ← polyToRats bl
        match brats with
        | [x0, y0, x1, y1] => do
          let pn ← pyIntJ p
          pure [⟨none, pn, none, (x0, y0, x1, y1)⟩]
        | _ => none
      | _ => none
    else pure []
  | _ => none

/-- `else` branch of `_normalize_regions_from_source`: polygon / box data on
the source object itself, guarded by `and page_num`. -/
def normalizeElse (kvs : List (String × JValue)) (pageTop : JValue) : Option (List Region) :=
  let poly := pyOr (dGet kvs "polygon") (dGet kvs "points")
  let bb := dGet kvs "boundingBox"
  if polyCond poly && truthy pageTop then
    match poly with
    | .list pl => do
      let prs ← polyToRats pl
      let b ← coerce_polygon_to_bbox prs
      let pn ← pyIntJ pageTop
      pure [⟨none, pn, some prs, b⟩]
    | _ => none
  else if bbCond bb && truthy pageTop then
    match bb with
    | .list bl => do
      let brats ← polyToRats bl
      match brats with
      | [x0, y0, x1, y1] => do
        let pn ← pyIntJ pageTop
        pure [⟨none, pn, none, (x0, y0, x1, y1)⟩]
      | _ => none
    | _ => none
  else pure []

/-- `_normalize_regions_from_source`: locate region data in one structured
source object under the alternate key names, preferring a nonempty
`boundingRegions` / `regions` list over the object's own polygon / box.
`none` models an uncaught exception. -/
def normalize_regions_from_source (kvs : List (String × JValue)) : Option (List Region) :=
  let pageTop := pyOr (dGet kvs "pageNumber") (pyOr (dGet kvs "page") (dGet kvs "pageIndex"))
  let brj := pyOr (pyOr (dGet kvs "boundingRegions") (dGet kvs "regions")) (.list [])
  match brj with
  | .list brs =>
    if brs.isEmpty then normalizeElse kvs pageTop
    else do
      let rss ← mapOpt (processBr pageTop) brs
      pure rss.flatten
  | _ => normalizeElse kvs pageTop

mutual

/-- `_consume_source_item` inside `_sources_to_regions`: a string is parsed
as a compact source reference, a mapping is normalized, a list is consumed
element by element, anything else contributes nothing. -/
def consumeItem : JValue → Option (List Region)
  | .str s => some (parse_cu_source_string s).toList
  | .dict kvs => normalize_regions_from_source kvs
  | .list xs => consumeList xs
  | _ => some []

/-- Consume the elements of a list source item, concatenating results. -/
def consumeList : List JValue → Option (List Region)
  | [] => some []
  | x :: xs => do
    let r ← consumeItem x
    let rs ← consumeList xs
    pure (r ++ rs)

end

/-- Dedup key used by `_sources_to_regions`: the `(pageNumber, bbox)` pair,
compared by value. -/
def regionKey (r : Region) : ℤ × (ℚ × ℚ × ℚ × ℚ) :=
  (r.pageNumber, r.bbox)

/-- The `seen`-set loop of `_sources_to_regions`: keep a region only when
its `(pageNumber, bbox)` key has not appeared before. -/
def dedupGo (seen : List (ℤ × (ℚ × ℚ × ℚ × ℚ))) : List Region → List Region
  | [] => []
  | r :: rest =>
    if regionKey r ∈ seen then dedupGo seen rest
    else r :: dedupGo (regionKey r :: seen) rest

/-- Order-preserving dedup by `(pageNumber, bbox)`, first occurrence kept. -/
def dedupFirst (l : List Region) : List Region :=
  dedupGo [] l

/-- `_sources_to_regions`: concatenate the regions produced from every raw
evidence item, then dedup by `(pageNumber, bbox)`. -/
def sources_to_regions (raw : List JValue) : Option (List Region) := do
  let rs ← consumeList raw
  pure (dedupFirst rs)

/-- `_pick_value_from_field_obj`: fixed priority chain of typed-value keys,
then the generic `value` key, else `None`. -/
def pick_value_from_field_obj (kvs : List (String × JValue)) : JValue :=
  if hasKey kvs "valueString" then dGet kvs "valueString"
  else if hasKey kvs "valueNumber" then dGet kvs "valueNumber"
  else if hasKey kvs "valueBoolean" then dGet kvs "valueBoolean"
  else if hasKey kvs "valueDate" then dGet kvs "valueDate"
  else if hasKey kvs "valueArray" then dGet kvs "valueArray"
  else if hasKey kvs "valueObject" then dGet kvs "valueObject"
  else if hasKey kvs "value" then dGet kvs "value"
  else .null

/-- Priority list of value keys, as written in the specification. -/
def valueKeyPriority : List String :=
  ["valueString", "valueNumber", "valueBoolean", "valueDate", "valueArray", "valueObject", "value"]

/-- Specification-worded value resolver: the first key of the priority list
present in the mapping supplies the value; absence of all yields `None`. -/
def pickValueSpec (kvs : List (String × JValue)) : JValue :=
  match valueKeyPriority.find? (fun k => hasKey kvs k) with
  | some k => dGet kvs k
  | none => .null

/-- Python `isinstance(v, (dict, list))`. -/
def isContainer : JValue → Bool
  | .dict _ => true
  | .list _ => true
  | _ => false

mutual

/-- `_gather_sources_recursive`: structure-agnostic deep search collecting
every value reachable under a `source`, `sources` or `evidence` key.  At a
mapping, the three keys are pulled in that fixed order, then every value of
the mapping (in insertion order) is descended into when it is a container. -/
def gather_sources_recursive : JValue → List JValue
  | .dict kvs =>
    (if hasKey kvs "source" then [dGet kvs "source"] else []) ++
      (if hasKey kvs "sources" then [dGet kvs "sources"] else []) ++
        (if hasKey kvs "evidence" then [dGet kvs "evidence"] else []) ++
          gatherEntries kvs
  | .list xs => gatherList xs
  | _ => []

/-- The `for item in node` loop of `_gather_sources_recursive`. -/
def gatherList : List JValue → List JValue
  | [] => []
  | x :: xs => gather_sources_recursive x ++ gatherList xs

/-- The `for v in node.values()` loop of `_gather_sources_recursive`. -/
def gatherEntries : List (String × JValue) → List JValue
  | [] => []
  | (_, v) :: rest =>
    (if isContainer v then gather_sources_recursive v else []) ++ gatherEntries rest

end

/-- The three provenance key names recognized by the evidence gatherer. -/
def srcKeyNames : List String :=
  ["source", "sources", "evidence"]

mutual

/-- Modelled from the specification sentence for the evidence gatherer: a
deep search whose order of discovery follows the natural traversal order of
the structure, mapping entries in insertion order, then sequence elements
in order — at each entry the value is emitted when its key is a provenance
key, then descended into when it is a container. -/
def gatherSpec : JValue → List JValue
  | .dict kvs => gatherSpecEntries kvs
  | .list xs => gatherSpecList xs
  | _ => []

/-- Sequence part of the specification-worded deep search. -/
def gatherSpecList : List JValue → List JValue
  | [] => []
  | x :: xs => gatherSpec x ++ gatherSpecList xs

/-- Mapping part of the specification-worded deep search. -/
def gatherSpecEntries : List (String × JValue) → List JValue
  | [] => []
  | (k, v) :: rest =>
    (if k ∈ srcKeyNames then [v] else []) ++
      (if isContainer v then gatherSpec v else []) ++ gatherSpecEntries rest

end

/-- No string occurs twice in the list (key sets of Python dictionaries). -/
def keysNodup : List String → Bool
  | [] => true
  | k :: rest => !(rest.any (fun a => decide (a = k))) && keysNodup rest

mutual

/-- Well-formedness of a JSON-like value as an image of a Python value:
every mapping in it has pairwise distinct keys. -/
def wfJ : JValue → Bool
  | .dict kvs => keysNodup (kvs.map Prod.fst) && wfEntries kvs
  | .list xs => wfList xs
  | _ => true

/-- Well-formedness of the elements of a sequence. -/
def wfList : List JValue → Bool
  | [] => true
  | x :: xs => wfJ x && wfList xs

/-- Well-formedness of the values of a mapping. -/
def wfEntries : List (String × JValue) → Bool
  | [] => true
  | (_, v) :: rest => wfJ v && wfEntries rest

end

/-- Python `isinstance(v, dict)`. -/
def isDictV : JValue → Bool
  | .dict _ => true
  | _ => false

/-- Shape test of `_find_fields_map`: a nonempty mapping, all of whose
values are mappings, whose first value carries a field-object marker key. -/
def fieldsMapShape (kvs : List (String × JValue)) : Bool :=
  !kvs.isEmpty && kvs.all (fun kv => isDictV kv.2) &&
    (match kvs with
     | (_, .dict sk) :: _ =>
       hasKey sk "value" || hasKey sk "valueString" || hasKey sk "sources" || hasKey sk "source"
     | _ => false)

mutual

/-- `_find_fields_map`: first (in pre-order) sub-mapping that looks like a
map from field names to field objects. -/
def find_fields_map : JValue → Option (List (String × JValue))
  | .dict kvs =>
    if fieldsMapShape kvs then some kvs else findFmEntries kvs
  | .list xs => findFmList xs
  | _ => none

/-- Search the elements of a sequence for a fields map. -/
def findFmList : List JValue → Option (List (String × JValue))
  | [] => none
  | x :: xs =>
    match find_fields_map x with
    | some f => some f
    | none => findFmList xs

/-- Search the values of a mapping for a fields map. -/
def findFmEntries : List (String × JValue) → Option (List (String × JValue))
  | [] => none
  | (_, v) :: rest =>
    match find_fields_map v with
    | some f => some f
    | none => findFmEntries rest

end

/-- The confidence of a category-bearing mapping: first truthy of
`confidence`, `score`, `probability`, coerced to a floating value;
non-coercible values (the `except` branch) are silently treated as absent. -/
def confOf (kvs : List (String × JValue)) : Option ℚ :=
  pyFloatJ (pyOr (dGet kvs "confidence") (pyOr (dGet kvs "score") (dGet kvs "probability")))

/-- The category/label check a single mapping undergoes in
`_find_first_category`: a `category` string key wins over a `label` string
key; the paired confidence comes from `confOf`. -/
def catPull (kvs : List (String × JValue)) : Option (String × Option ℚ) :=
  match findEntry kvs "category" with
  | some (.str s) => some (s, confOf kvs)
  | _ =>
    match findEntry kvs "label" with
    | some (.str s) => some (s, confOf kvs)
    | _ => none

mutual

/-- `_find_first_category`: unconstrained recursive search for the first
mapping (in pre-order) carrying a `category` or `label` string key. -/
def find_first_category : JValue → Option (String × Option ℚ)
  | .dict kvs =>
    match catPull kvs with
    | some p => some p
    | none => ffcEntries kvs
  | .list xs => ffcList xs
  | _ => none

/-- Search the elements of a sequence for a category. -/
def ffcList : List JValue → Option (String × Option ℚ)
  | [] => none
  | x :: xs =>
    match find_first_category x with
    | some p => some p
    | none => ffcList xs

/-- Search the values of a mapping for a category. -/
def ffcEntries : List (String × JValue) → Option (String × Option ℚ)
  | [] => none
  | (_, v) :: rest =>
    match find_first_category v with
    | some p => some p
    | none => ffcEntries rest

end

/-- Whether a mapping carries a `category` or `label` string key. -/
def catMatch (kvs : List (String × JValue)) : Bool :=
  (match findEntry kvs "category" with
   | some (.str _) => true
   | _ => false) ||
    (match findEntry kvs "label" with
     | some (.str _) => true
     | _ => false)

mutual

/-- Modelled from the specification sentence for the classifier output
interpreter: the first mapping, in the natural (pre-order) traversal order
of the structure, containing a `category` or `label` string key. -/
def specFirstCat : JValue → Option JValue
  | .dict kvs => if catMatch kvs then some (.dict kvs) else sfcEntries kvs
  | .list xs => sfcList xs
  | _ => none

/-- Sequence part of the specification-worded category search. -/
def sfcList : List JValue → Option JValue
  | [] => none
  | x :: xs =>
    match specFirstCat x with
    | some m => some m
    | none => sfcList xs

/-- Mapping part of the specification-worded category search. -/
def sfcEntries : List (String × JValue) → Option JValue
  | [] => none
  | (_, v) :: rest =>
    match specFirstCat v with
    | some m => some m
    | none => sfcEntries rest

end

/-- `parse_classifier_output`: the located `(label, confidence)` pair, or
`(None, None)` when no category-bearing mapping exists anywhere. -/
def parse_classifier_output (result : JValue) : Option String × Option ℚ :=
  match find_first_category result with
  | some (l, c) => (some l, c)
  | none => (none, none)

/-- One extracted field: name, resolved value, resolved page regions. -/
structure FieldEntry where
  name : String
  value : JValue
  regions : List Region
deriving Repr

/-- Python `c.get("kind") in ("document", "text", None)`. -/
def kindOk (ckvs : List (String × JValue)) : Bool :=
  match dGet ckvs "kind" with
  | .str s => decide (s = "document") || decide (s = "text")
  | .null => true
  | _ => false

/-- The known candidate keys under which the fields map may sit. -/
def candidateFieldKeys : List String :=
  ["fields", "extractedFields", "output", "data"]

/-- Body of the `for field_name, field_obj in fields_map.items()` loop of
`extract_fields_with_locations`: non-mapping field objects are skipped;
regions come from the field object's own provenance keys, falling back to
the deep search only when the shallow pass yields zero regions. -/
def processField (nf : String × JValue) : Option (List FieldEntry) :=
  match nf with
  | (fname, .dict fo) => do
    let value := pick_value_from_field_obj fo
    let sourcesJ :=
      pyOr (dGet fo "sources") (pyOr (dGet fo "source") (pyOr (dGet fo "evidence") (.list [])))
    let sources :=
      match sourcesJ with
      | .list xs => xs
      | v => [v]
    let regions ← sources_to_regions sources
    let regions2 ←
      if regions.isEmpty then sources_to_regions (gather_sources_recursive (.dict fo))
      else pure regions
    pure [⟨fname, value, regions2⟩]
  | _ => pure []

/-- `extract_fields_with_locations`: locate the fields map (known paths
under the first document-like content entry, else the recursive fallback)
and turn each entry into a `FieldEntry`.  `none` models an uncaught exception;
iterating a non-sequence `contents` value is treated as an error. -/
def extract_fields_with_locations (ar : JValue) : Option (List FieldEntry) := do
  let akvs ←
    match ar with
    | .dict kvs => some kvs
    | _ => none
  let c1 ←
    match pyOr (dGet akvs "result") (.dict []) with
    | .dict rkvs => some (pyOr (dGet rkvs "contents") (.list []))
    | _ => none
  let contentsJ := if truthy c1 then c1 else pyOr (dGet akvs "contents") (.list [])
  let contents ←
    match contentsJ with
    | .list xs => some xs
    | _ => none
  let content : Option JValue :=
    match contents.find? (fun c =>
        match c with
        | .dict ck => kindOk ck
        | _ => false) with
    | some c => some c
    | none => contents.head?
  let candidates :=
    match content with
    | some (.dict ckvs) =>
      (candidateFieldKeys.filterMap (fun k =>
        match findEntry ckvs k with
        | some (.dict f) => some f
        | _ => none)) ++
        (match pyOr (dGet ckvs "extraction") (pyOr (dGet ckvs "result") (.dict [])) with
         | .dict ekvs =>
           match dGet ekvs "fields" with
           | .dict f => [f]
           | _ => []
         | _ => [])
    | _ => []
  let fm : Option (List (String × JValue)) :=
    match candidates.head? with
    | some f => some f
    | none => find_fields_map ar
  match fm with
  | none => pure []
  | some fkvs =>
    if fkvs.isEmpty then pure []
    else do
      let fss ← mapOpt processField fkvs
      pure fss.flatten

/-- Scale factor of `draw_regions_on_page`: raster dimension divided by the
document-unit dimension when that is available and truthy, else 1.0. -/
def scaleFactor (dim : ℚ) (docDim : Option ℚ) : ℚ :=
  match docDim with
  | some w => if w ≠ 0 then dim / w else 1
  | none => 1

/-- One rectangle of `draw_regions_on_page`: the bbox scaled coordinatewise
by the independent x and y factors. -/
def scaleRect (sx sy : ℚ) (b : ℚ × ℚ × ℚ × ℚ) : ℚ × ℚ × ℚ × ℚ :=
  (b.1 * sx, b.2.1 * sy, b.2.2.1 * sx, b.2.2.2 * sy)

/-- Geometry of `draw_regions_on_page` on a raster image of size `W × H`:
the rectangle drawn for each region, in order.  The pixel-pushing side of
the Python function (copying the image, stroking the outline) is outside
the model; the claim under verification concerns only these coordinates. -/
def draw_regions_rects (W H : ℚ) (regions : List Region) (pageW pageH : Option ℚ) :
    List (ℚ × ℚ × ℚ × ℚ) :=
  regions.map (fun r => scaleRect (scaleFactor W pageW) (scaleFactor H pageH) r.bbox)

/-- Python `min` over a nonempty list, written as a fold, is an element. -/
theorem foldl_min_mem (l : List ℚ) (a : ℚ) : l.foldl min a ∈ a :: l := by
  induction l generalizing a with
  | nil => simp
  | cons b t ih =>
    show t.foldl min (min a b) ∈ a :: b :: t
    rcases List.mem_cons.mp (ih (min a b)) with h1 | h1
    · rcases min_choice a b with h2 | h2
      · exact List.mem_cons.mpr (Or.inl (h1.trans h2))
      · exact List.mem_cons.mpr (Or.inr (List.mem_cons.mpr (Or.inl (h1.trans h2))))
    · exact List.mem_cons.mpr (Or.inr (List.mem_cons.mpr (Or.inr h1)))

/-- Python `min` over a nonempty list is a lower bound. -/
theorem foldl_min_le (l : List ℚ) (a : ℚ) : ∀ x ∈ a :: l, l.foldl min a ≤ x := by
  induction l generalizing a with
  | nil =>
    intro x hx
    rw [List.mem_singleton] at hx
    simp [hx]
  | cons b t ih =>
    intro x hx
    show t.foldl min (min a b) ≤ x
    rcases List.mem_cons.mp hx with h | hx1
    · rw [h]
      exact le_trans (ih (min a b) (min a b) (List.mem_cons_self _ _)) (min_le_left a b)
    · rcases List.mem_cons.mp hx1 with h | hx2
      · rw [h]
        exact le_trans (ih (min a b) (min a b) (List.mem_cons_self _ _)) (min_le_right a b)
      · exact ih (min a b) x (List.mem_cons.mpr (Or.inr hx2))

/-- Python `max` over a nonempty list, written as a fold, is an element. -/
theorem foldl_max_mem (l : List ℚ) (a : ℚ) : l.foldl max a ∈ a :: l := by
  induction l generalizing a with
  | nil => simp
  | cons b t ih =>
    show t.foldl max (max a b) ∈ a :: b :: t
    rcases List.mem_cons.mp (ih (max a b)) with h1 | h1
    · rcases max_choice a b with h2 | h2
      · exact List.mem_cons.mpr (Or.inl (h1.trans h2))
      · exact List.mem_cons.mpr (Or.inr (List.mem_cons.mpr (Or.inl (h1.trans h2))))
    · exact List.mem_cons.mpr (Or.inr (List.mem_cons.mpr (Or.inr h1)))

/-- Python `max` over a nonempty list is an upper bound. -/
theorem le_foldl_max (l : List ℚ) (a : ℚ) : ∀ x ∈ a :: l, x ≤ l.foldl max a := by
  induction l generalizing a with
  | nil =>
    intro x hx
    rw [List.mem_singleton] at hx
    simp [hx]
  | cons b t ih =>
    intro x hx
    show x ≤ t.foldl max (max a b)
    rcases List.mem_cons.mp hx with h | hx1
    · rw [h]
      exact le_trans (le_max_left a b) (ih (max a b) (max a b) (List.mem_cons_self _ _))
    · rcases List.mem_cons.mp hx1 with h | hx2
      · rw [h]
        exact le_trans (le_max_right a b) (ih (max a b) (max a b) (List.mem_cons_self _ _))
      · exact ih (max a b) x (List.mem_cons.mpr (Or.inr hx2))

/-- A successful `mapOpt` preserves length. -/
theorem mapOpt_length (f : α → Option β) (l : List α) :
    ∀ r, mapOpt f l = some r → r.length = l.length := by
  induction l with
  | nil =>
    intro r h
    simp only [mapOpt, Option.some.injEq] at h
    simp [← h]
  | cons x xs ih =>
    intro r h
    simp only [mapOpt] at h
    cases hfx : f x with
    | none => rw [hfx] at h; simp at h
    | some y =>
      cases hm : mapOpt f xs with
      | none => rw [hfx, hm] at h; simp at h
      | some ys =>
        rw [hfx, hm] at h
        simp only [Option.some.injEq] at h
        simp [← h, ih ys hm]

/-- The even-position sublist of a nonempty list is nonempty. -/
theorem evens_ne_nil {l : List ℚ} (h : l ≠ []) : ∃ x xs, evens l = x :: xs := by
  match l with
  | [] => exact absurd rfl h
  | [x] => exact ⟨x, [], rfl⟩
  | x :: _ :: rest => exact ⟨x, evens rest, rfl⟩

/-- The odd-position sublist of a list of two or more elements is nonempty. -/
theorem odds_ne_nil {l : List ℚ} (h : 2 ≤ l.length) : ∃ y ys, odds l = y :: ys := by
  match l with
  | [] => simp at h
  | [x] => simp at h
  | _ :: y :: rest => exact ⟨y, odds rest, rfl⟩

/-- On a long-enough polygon, `_coerce_polygon_to_bbox` succeeds and returns
the componentwise minima and maxima of the x and y coordinate lists. -/
theorem coerce_bbox_spec (poly : List ℚ) (hne : poly ≠ []) (h2 : 2 ≤ poly.length) :
    ∃ b, coerce_polygon_to_bbox poly = some b ∧
      (b.1 ∈ evens poly ∧ ∀ z ∈ evens poly, b.1 ≤ z) ∧
      (b.2.1 ∈ odds poly ∧ ∀ z ∈ odds poly, b.2.1 ≤ z) ∧
      (b.2.2.1 ∈ evens poly ∧ ∀ z ∈ evens poly, z ≤ b.2.2.1) ∧
      (b.2.2.2 ∈ odds poly ∧ ∀ z ∈ odds poly, z ≤ b.2.2.2) := by
  obtain ⟨x, xs, hx⟩ := evens_ne_nil hne
  obtain ⟨y, ys, hy⟩ := odds_ne_nil h2
  refine ⟨(xs.foldl min x, ys.foldl min y, xs.foldl max x, ys.foldl max y), ?_, ?_, ?_, ?_, ?_⟩
  · simp [coerce_polygon_to_bbox, hx, hy]
  · rw [hx]; exact ⟨foldl_min_mem xs x, foldl_min_le xs x⟩
  · rw [hy]; exact ⟨foldl_min_mem ys y, foldl_min_le ys y⟩
  · rw [hx]; exact ⟨foldl_max_mem xs x, le_foldl_max xs x⟩
  · rw [hy]; exact ⟨foldl_max_mem ys y, le_foldl_max ys y⟩

/-- Truncation toward zero is the identity on integers. -/
theorem pyTrunc_intCast (p : ℤ) : pyTrunc ((p : ℤ) : ℚ) = p := by
  unfold pyTrunc
  have hf : ∀ z : ℤ, ((z : ℚ)).floor = z := by
    intro z
    have : ((z : ℚ)).floor = ⌊(z : ℚ)⌋ := rfl
    rw [this, Int.floor_intCast]
  by_cases h : ((p : ℤ) : ℚ) < 0
  · rw [if_pos h, ← Int.cast_neg, hf]; ring
  · rw [if_neg h, hf]

/-- Shared successful-parse characterization of `parse_cu_source_string`:
when the stripped string passes the shape guards and every token of the
parenthesized body parses as a float, the result is the `Region` built from
the head character, the truncated page value and the first 8 coordinates. -/
theorem parse_spec_aux (s : String) (K : Char) (t0 : List Char) (ts : List (List Char))
    (pq : ℚ) (qs : List ℚ)
    (hlen : 4 ≤ (pyStrip s.toList).length)
    (hpar : '(' ∈ pyStrip s.toList)
    (hend : (pyStrip s.toList).getLast? = some ')')
    (hhead : (pyStrip s.toList).head? = some K)
    (hparts : cuPartsOf (pyStrip s.toList) = t0 :: ts)
    (hpage : pyFloat? t0 = some pq)
    (hcoords : mapOpt pyFloat? ts = some qs)
    (hn : 8 ≤ qs.length) :
    ∃ b, coerce_polygon_to_bbox (qs.take 8) = some b ∧
      parse_cu_source_string s = some ⟨some K, pyTrunc pq, some (qs.take 8), b⟩ := by
  have hts : ts.length = qs.length := (mapOpt_length pyFloat? ts qs hcoords).symm
  have htake : (qs.take 8).length = 8 := by
    rw [List.length_take]
    omega
  have hne : qs.take 8 ≠ [] := by
    intro h
    rw [h] at htake
    simp at htake
  have h2 : 2 ≤ (qs.take 8).length := by omega
  obtain ⟨b, hb, _, _, _, _⟩ := coerce_bbox_spec (qs.take 8) hne h2
  refine ⟨b, hb, ?_⟩
  have hcond : ¬((pyStrip s.toList).length < 4 ∨ '(' ∉ pyStrip s.toList ∨
      (pyStrip s.toList).getLast? ≠ some ')') := by
    push_neg
    exact ⟨by omega, hpar, hend⟩
  simp only [parse_cu_source_string, if_neg hcond, hhead, hparts, hpage, hcoords, hb]
  have h9 : ¬((t0 :: ts).length < 9) := by
    simp only [List.length_cons]
    omega
  rw [if_neg h9]
  have h8 : ¬(qs.length < 8) := by omega
  rw [if_neg h8]

/-- C1: for every well-formed source string of the form
`K(p,x1,y1,x2,y2,x3,y3,x4,y4)` whose parenthesized body is a numeric page
number followed by at least 8 numeric coordinate values,
`parse_cu_source_string` returns a region with kind `K`, page number `p`,
polygon the first 8 coordinate values, and bbox the axis-aligned min/max
over the x and y coordinates taken independently. -/
theorem claim_C1 (s : String) (K : Char) (p : ℤ) (t0 : List Char) (ts : List (List Char))
    (qs : List ℚ)
    (hlen : 4 ≤ (pyStrip s.toList).length)
    (hpar : '(' ∈ pyStrip s.toList)
    (hend : (pyStrip s.toList).getLast? = some ')')
    (hhead : (pyStrip s.toList).head? = some K)
    (hparts : cuPartsOf (pyStrip s.toList) = t0 :: ts)
    (hpage : pyFloat? t0 = some ((p : ℤ) : ℚ))
    (hcoords : mapOpt pyFloat? ts = some qs)
    (hn : 8 ≤ qs.length) :
    ∃ r, parse_cu_source_string s = some r ∧ r.kind = some K ∧ r.pageNumber = p ∧
      r.polygon = some (qs.take 8) ∧
      (r.bbox.1 ∈ evens (qs.take 8) ∧ ∀ z ∈ evens (qs.take 8), r.bbox.1 ≤ z) ∧
      (r.bbox.2.1 ∈ odds (qs.take 8) ∧ ∀ z ∈ odds (qs.take 8), r.bbox.2.1 ≤ z) ∧
      (r.bbox.2.2.1 ∈ evens (qs.take 8) ∧ ∀ z ∈ evens (qs.take 8), z ≤ r.bbox.2.2.1) ∧
      (r.bbox.2.2.2 ∈ odds (qs.take 8) ∧ ∀ z ∈ odds (qs.take 8), z ≤ r.bbox.2.2.2) := by
  obtain ⟨b, hb, hparse⟩ :=
    parse_spec_aux s K t0 ts ((p : ℤ) : ℚ) qs hlen hpar hend hhead hparts hpage hcoords hn
  rw [pyTrunc_intCast] at hparse
  have htake : (qs.take 8).length = 8 := by
    rw [List.length_take]
    omega
  have hne : qs.take 8 ≠ [] := by
    intro h
    rw [h] at htake
    simp at htake
  have h2 : 2 ≤ (qs.take 8).length := by omega
  obtain ⟨b', hb', hc1, hc2, hc3, hc4⟩ := coerce_bbox_spec (qs.take 8) hne h2
  have hbb : b = b' := by
    rw [hb] at hb'
    exact Option.some.inj hb'
  rw [← hbb] at hc1 hc2 hc3 hc4
  exact ⟨_, hparse, rfl, rfl, rfl, hc1, hc2, hc3, hc4⟩

/-- Concrete well-formed source string for the C1 witness. -/
def srcOkC1 : String :=
  "D(1,0,0,10,0,10,5,0,5)"

/-- Witness for C1 at a concrete well-formed source string. -/
theorem claim_C1_witness :
    ∃ r, parse_cu_source_string srcOkC1 = some r ∧ r.kind = some 'D' ∧ r.pageNumber = 1 ∧
      r.polygon = some (([0, 0, 10, 0, 10, 5, 0, 5] : List ℚ).take 8) ∧
      (r.bbox.1 ∈ evens (([0, 0, 10, 0, 10, 5, 0, 5] : List ℚ).take 8) ∧
        ∀ z ∈ evens (([0, 0, 10, 0, 10, 5, 0, 5] : List ℚ).take 8), r.bbox.1 ≤ z) ∧
      (r.bbox.2.1 ∈ odds (([0, 0, 10, 0, 10, 5, 0, 5] : List ℚ).take 8) ∧
        ∀ z ∈ odds (([0, 0, 10, 0, 10, 5, 0, 5] : List ℚ).take 8), r.bbox.2.1 ≤ z) ∧
      (r.bbox.2.2.1 ∈ evens (([0, 0, 10, 0, 10, 5, 0, 5] : List ℚ).take 8) ∧
        ∀ z ∈ evens (([0, 0, 10, 0, 10, 5, 0, 5] : List ℚ).take 8), z ≤ r.bbox.2.2.1) ∧
      (r.bbox.2.2.2 ∈ odds (([0, 0, 10, 0, 10, 5, 0, 5] : List ℚ).take 8) ∧
        ∀ z ∈ odds (([0, 0, 10, 0, 10, 5, 0, 5] : List ℚ).take 8), z ≤ r.bbox.2.2.2) :=
  claim_C1 srcOkC1 'D' 1 ['1']
    [['0'], ['0'], ['1', '0'], ['0'], ['1', '0'], ['5'], ['0'], ['5']]
    [0, 0, 10, 0, 10, 5, 0, 5]
    (by decide) (by decide) (by decide) (by decide) (by decide) (by decide) (by decide)
    (by decide)

/-- C3: for every malformed source string — no parenthesized body, fewer
than 9 body tokens, or an unparseable page token — `parse_cu_source_string`
returns `none` (the function is total in the model: it never raises). -/
theorem claim_C3 (s : String)
    (h : ('(' ∉ pyStrip s.toList ∨ (pyStrip s.toList).getLast? ≠ some ')') ∨
      (cuPartsOf (pyStrip s.toList)).length < 9 ∨
      ∃ t0 ts, cuPartsOf (pyStrip s.toList) = t0 :: ts ∧ pyFloat? t0 = none) :
    parse_cu_source_string s = none := by
  by_cases hc : (pyStrip s.toList).length < 4 ∨ '(' ∉ pyStrip s.toList ∨
      (pyStrip s.toList).getLast? ≠ some ')'
  · simp only [parse_cu_source_string]
    rw [if_pos hc]
  · have hc' := hc
    push_neg at hc'
    obtain ⟨h4, hpar, hend⟩ := hc'
    simp only [parse_cu_source_string]
    rw [if_neg hc]
    rcases h with (h1 | h1) | h9 | ⟨t0, ts, hparts, hnone⟩
    · exact absurd hpar h1
    · exact absurd hend h1
    · cases hh : (pyStrip s.toList).head? with
      | none => simp [hh]
      | some K =>
        simp only [hh]
        rw [if_pos h9]
    · cases hh : (pyStrip s.toList).head? with
      | none => simp [hh]
      | some K =>
        simp only [hh]
        by_cases h9 : (cuPartsOf (pyStrip s.toList)).length < 9
        · rw [if_pos h9]
        · rw [if_neg h9]
          have hparts' : cuPartsOf (pyStrip s.data) = t0 :: ts := hparts
          cases hm : mapOpt pyFloat? ts <;> simp [hparts', hnone, hm]

/-- Concrete malformed source string for the C3 witness. -/
def srcBadC3 : String :=
  "hello"

/-- Witness for C3 at a concrete malformed source string. -/
theorem claim_C3_witness : parse_cu_source_string srcBadC3 = none :=
  claim_C3 srcBadC3 (Or.inl (Or.inl (by decide)))

/-- Source string with 9 numeric body tokens for the C4 counterexample. -/
def srcOkC4 : String :=
  "D(1,0,0,10,0,10,5,0,5)"

/-- Source string with 10 body tokens, the extra one non-numeric, for the
C4 counterexample. -/
def srcBadC4 : String :=
  "D(1,0,0,10,0,10,5,0,5,zz)"

/-- Counterexample to C4 as stated: a source string whose parenthesized
body has 10 comma-separated tokens (a page number plus 9 more) yet yields
no region, because the token beyond the first 9 does not parse as a float —
so the extra tokens do affect whether a region is returned. -/
theorem claim_C4_counterexample :
    9 ≤ (cuPartsOf (pyStrip srcBadC4.toList)).length ∧
      parse_cu_source_string srcBadC4 = none ∧
      parse_cu_source_string srcOkC4 ≠ none := by
  refine ⟨by decide, by decide, by decide⟩

/-- C4 (amended): for every source string whose parenthesized body has at
least 9 comma-separated tokens that all parse as floats, the parser
returns the region built from the page number and the first 8 coordinate
values only — tokens beyond the first 9 (which must still be numeric) have
no effect on the region's contents. -/
theorem claim_C4 (s : String) (K : Char) (t0 : List Char) (ts : List (List Char))
    (pq : ℚ) (qs : List ℚ)
    (hlen : 4 ≤ (pyStrip s.toList).length)
    (hpar : '(' ∈ pyStrip s.toList)
    (hend : (pyStrip s.toList).getLast? = some ')')
    (hhead : (pyStrip s.toList).head? = some K)
    (hparts : cuPartsOf (pyStrip s.toList) = t0 :: ts)
    (hpage : pyFloat? t0 = some pq)
    (hcoords : mapOpt pyFloat? ts = some qs)
    (hn : 8 ≤ qs.length) :
    ∃ b, coerce_polygon_to_bbox (qs.take 8) = some b ∧
      parse_cu_source_string s = some ⟨some K, pyTrunc pq, some (qs.take 8), b⟩ :=
  parse_spec_aux s K t0 ts pq qs hlen hpar hend hhead hparts hpage hcoords hn

/-- Source string with a 10th, numeric, body token for the C4 witness. -/
def srcExtraC4 : String :=
  "D(1,0,0,10,0,10,5,0,5,7)"

/-- Witness for C4 at a concrete source string carrying an extra numeric
token: the returned region is built from the first 8 coordinates only. -/
theorem claim_C4_witness :
    ∃ b, coerce_polygon_to_bbox (([0, 0, 10, 0, 10, 5, 0, 5, 7] : List ℚ).take 8) = some b ∧
      parse_cu_source_string srcExtraC4 =
        some ⟨some 'D', pyTrunc 1, some (([0, 0, 10, 0, 10, 5, 0, 5, 7] : List ℚ).take 8), b⟩ :=
  claim_C4 srcExtraC4 'D' ['1']
    [['0'], ['0'], ['1', '0'], ['0'], ['1', '0'], ['5'], ['0'], ['5'], ['7']]
    1 [0, 0, 10, 0, 10, 5, 0, 5, 7]
    (by decide) (by decide) (by decide) (by decide) (by decide) (by decide) (by decide)
    (by decide)

/-- Structured source object whose `boundingRegions` list holds a polygon
with no page number anywhere in the chain. -/
def noPageBrSource : List (String × JValue) :=
  [("boundingRegions", .list [.dict [("polygon",
    .list [.num 0, .num 0, .num 1, .num 0, .num 1, .num 1, .num 0, .num 1])]])]

/-- The same page-number-less polygon placed directly on the source object,
reaching the guarded else-branch instead. -/
def noPageFlatSource : List (String × JValue) :=
  [("polygon", .list [.num 0, .num 0, .num 1, .num 0, .num 1, .num 1, .num 0, .num 1])]

/-- C2 (evaluation at the failing input): on a `boundingRegions` element
with a polygon but no resolvable page number, `_normalize_regions_from_source`
evaluates `int(p)` with `p = None` and raises a `TypeError` (`none` in the
model) instead of silently emitting no region — while the same data placed
directly on the source object takes the `and page_num`-guarded else-branch
and correctly yields no region without raising. -/
theorem claim_C2_code_eval :
    normalize_regions_from_source noPageBrSource = none ∧
      normalize_regions_from_source noPageFlatSource = some [] := by
  refine ⟨by decide, by decide⟩

/-- Every region surviving the dedup loop is a subsequence selection of the
produced regions, in their original order. -/
theorem dedupGo_sublist (l : List Region) :
    ∀ seen, (dedupGo seen l).Sublist l := by
  induction l with
  | nil =>
    intro seen
    simp [dedupGo]
  | cons r rest ih =>
    intro seen
    unfold dedupGo
    by_cases h : regionKey r ∈ seen
    · rw [if_pos h]
      exact List.Sublist.cons r (ih seen)
    · rw [if_neg h]
      exact List.Sublist.cons₂ r (ih (regionKey r :: seen))

/-- No key of a region surviving the dedup loop is in the seen set. -/
theorem dedupGo_not_seen (l : List Region) :
    ∀ seen, ∀ r2 ∈ dedupGo seen l, regionKey r2 ∉ seen := by
  induction l with
  | nil =>
    intro seen r2 h
    simp [dedupGo] at h
  | cons r rest ih =>
    intro seen r2 h2
    unfold dedupGo at h2
    by_cases h : regionKey r ∈ seen
    · rw [if_pos h] at h2
      exact ih seen r2 h2
    · rw [if_neg h] at h2
      rcases List.mem_cons.mp h2 with he | hm
      · rw [he]
        exact h
      · intro hs
        exact ih (regionKey r :: seen) r2 hm (List.mem_cons.mpr (Or.inr hs))

/-- The dedup loop output has pairwise distinct `(pageNumber, bbox)` keys. -/
theorem dedupGo_pairwise (l : List Region) :
    ∀ seen, (dedupGo seen l).Pairwise (fun a b => regionKey a ≠ regionKey b) := by
  induction l with
  | nil =>
    intro seen
    simp [dedupGo]
  | cons r rest ih =>
    intro seen
    unfold dedupGo
    by_cases h : regionKey r ∈ seen
    · rw [if_pos h]
      exact ih seen
    · rw [if_neg h]
      refine List.Pairwise.cons ?_ (ih (regionKey r :: seen))
      intro b hb he
      exact dedupGo_not_seen rest (regionKey r :: seen) b hb
        (List.mem_cons.mpr (Or.inl he.symm))

/-- Every produced key either was already seen or survives in the output. -/
theorem dedupGo_complete (l : List Region) :
    ∀ seen, ∀ r ∈ l, regionKey r ∈ seen ∨
      ∃ r2 ∈ dedupGo seen l, regionKey r2 = regionKey r := by
  induction l with
  | nil =>
    intro seen r h
    simp at h
  | cons r0 rest ih =>
    intro seen r h
    unfold dedupGo
    by_cases h0 : regionKey r0 ∈ seen
    · rw [if_pos h0]
      rcases List.mem_cons.mp h with he | hm
      · rw [he]
        exact Or.inl h0
      · exact ih seen r hm
    · rw [if_neg h0]
      rcases List.mem_cons.mp h with he | hm
      · rw [he]
        exact Or.inr ⟨r0, List.mem_cons_self _ _, rfl⟩
      · rcases ih (regionKey r0 :: seen) r hm with hseen | ⟨r2, hr2, hk⟩
        · rcases List.mem_cons.mp hseen with he2 | hs
          · exact Or.inr ⟨r0, List.mem_cons_self _ _, he2.symm⟩
          · exact Or.inl hs
        · exact Or.inr ⟨r2, List.mem_cons.mpr (Or.inr hr2), hk⟩

/-- Every survivor of the dedup loop is the first occurrence of its key
among the produced regions whose keys were not already seen. -/
theorem dedupGo_first (l : List Region) :
    ∀ seen, ∀ r2 ∈ dedupGo seen l, ∃ pre post, l = pre ++ r2 :: post ∧
      ∀ x ∈ pre, regionKey x ∉ seen → regionKey x ≠ regionKey r2 := by
  induction l with
  | nil =>
    intro seen r2 h
    simp [dedupGo] at h
  | cons r rest ih =>
    intro seen r2 h2
    unfold dedupGo at h2
    by_cases h : regionKey r ∈ seen
    · rw [if_pos h] at h2
      obtain ⟨pre, post, heq, hpre⟩ := ih seen r2 h2
      refine ⟨r :: pre, post, by rw [heq]; rfl, ?_⟩
      intro x hx hxs
      rcases List.mem_cons.mp hx with he | hm
      · rw [he] at hxs
        exact absurd h hxs
      · exact hpre x hm hxs
    · rw [if_neg h] at h2
      rcases List.mem_cons.mp h2 with he | hm
      · refine ⟨[], rest, by rw [he]; rfl, ?_⟩
        intro x hx
        simp at hx
      · obtain ⟨pre, post, heq, hpre⟩ := ih (regionKey r :: seen) r2 hm
        have hne : regionKey r2 ≠ regionKey r :=
          fun hk => dedupGo_not_seen rest (regionKey r :: seen) r2 hm
            (List.mem_cons.mpr (Or.inl hk))
        refine ⟨r :: pre, post, by rw [heq]; rfl, ?_⟩
        intro x hx hxs
        rcases List.mem_cons.mp hx with hxe | hxm
        · rw [hxe]
          exact fun hk => hne hk.symm
        · by_cases hxr : regionKey x = regionKey r
          · rw [hxr]
            exact fun hk => hne hk.symm
          · exact hpre x hxm (by
              intro hmem
              rcases List.mem_cons.mp hmem with hxe2 | hxs2
              · exact hxr hxe2
              · exact hxs hxs2)

/-- C5: for every raw evidence list on which `_sources_to_regions` returns,
the returned region list is an order-preserving selection of the produced
regions with pairwise distinct `(pageNumber, bbox)` keys, every produced
key is represented, and each survivor is the first occurrence of its key in
the concatenated production order. -/
theorem claim_C5 (raw : List JValue) (out : List Region)
    (h : sources_to_regions raw = some out) :
    ∃ produced, consumeList raw = some produced ∧
      out.Sublist produced ∧
      out.Pairwise (fun a b => regionKey a ≠ regionKey b) ∧
      (∀ r ∈ produced, ∃ r2 ∈ out, regionKey r2 = regionKey r) ∧
      (∀ r2 ∈ out, ∃ pre post, produced = pre ++ r2 :: post ∧
        ∀ x ∈ pre, regionKey x ≠ regionKey r2) := by
  unfold sources_to_regions at h
  cases hc : consumeList raw with
  | none =>
    rw [hc] at h
    simp at h
  | some produced =>
    rw [hc] at h
    have h2 : dedupFirst produced = out := Option.some.inj h
    refine ⟨produced, rfl, ?_, ?_, ?_, ?_⟩
    · rw [← h2]
      exact dedupGo_sublist produced []
    · rw [← h2]
      exact dedupGo_pairwise produced []
    · intro r hr
      rcases dedupGo_complete produced [] r hr with hs | ⟨r2, hr2, hk⟩
      · simp at hs
      · exact ⟨r2, by rw [← h2]; exact hr2, hk⟩
    · intro r2 hr2
      rw [← h2] at hr2
      obtain ⟨pre, post, heq, hpre⟩ := dedupGo_first produced [] r2 hr2
      exact ⟨pre, post, heq, fun x hx => hpre x hx (List.not_mem_nil _)⟩

/-- Raw evidence list whose two source strings denote the same physical
region, for the C5 witness. -/
def dupEvidence : List JValue :=
  [.str "D(1,0,0,2,0,2,2,0,2)", .str "A(1, 0,0, 2,0, 2,2, 0,2)"]

/-- The single region surviving the dedup in the C5 witness. -/
def dedupedRegion : Region :=
  ⟨some 'D', 1, some [0, 0, 2, 0, 2, 2, 0, 2], (0, 0, 2, 2)⟩

/-- Witness for C5 at a concrete evidence list with a duplicated region. -/
theorem claim_C5_witness :
    ∃ produced, consumeList dupEvidence = some produced ∧
      [dedupedRegion].Sublist produced ∧
      [dedupedRegion].Pairwise (fun a b => regionKey a ≠ regionKey b) ∧
      (∀ r ∈ produced, ∃ r2 ∈ [dedupedRegion], regionKey r2 = regionKey r) ∧
      (∀ r2 ∈ [dedupedRegion], ∃ pre post, produced = pre ++ r2 :: post ∧
        ∀ x ∈ pre, regionKey x ≠ regionKey r2) :=
  claim_C5 dupEvidence [dedupedRegion] (by decide)

/-- C6: the value picked from a field object is determined by the fixed
priority order valueString, valueNumber, valueBoolean, valueDate,
valueArray, valueObject, then value — the first present key supplies the
value (in particular valueString beats value) and absence of all seven
yields `None`. -/
theorem claim_C6 (kvs : List (String × JValue)) :
    pick_value_from_field_obj kvs = pickValueSpec kvs := by
  by_cases h1 : hasKey kvs "valueString" = true
  · simp [pick_value_from_field_obj, pickValueSpec, valueKeyPriority, List.find?, h1]
  by_cases h2 : hasKey kvs "valueNumber" = true
  · simp [pick_value_from_field_obj, pickValueSpec, valueKeyPriority, List.find?, h1, h2]
  by_cases h3 : hasKey kvs "valueBoolean" = true
  · simp [pick_value_from_field_obj, pickValueSpec, valueKeyPriority, List.find?, h1, h2, h3]
  by_cases h4 : hasKey kvs "valueDate" = true
  · simp [pick_value_from_field_obj, pickValueSpec, valueKeyPriority, List.find?, h1, h2, h3,
      h4]
  by_cases h5 : hasKey kvs "valueArray" = true
  · simp [pick_value_from_field_obj, pickValueSpec, valueKeyPriority, List.find?, h1, h2, h3,
      h4, h5]
  by_cases h6 : hasKey kvs "valueObject" = true
  · simp [pick_value_from_field_obj, pickValueSpec, valueKeyPriority, List.find?, h1, h2, h3,
      h4, h5, h6]
  by_cases h7 : hasKey kvs "value" = true
  · simp [pick_value_from_field_obj, pickValueSpec, valueKeyPriority, List.find?, h1, h2, h3,
      h4, h5, h6, h7]
  · simp [pick_value_from_field_obj, pickValueSpec, valueKeyPriority, List.find?, h1, h2, h3,
      h4, h5, h6, h7]

/-- Analysis result whose first content entry holds the single field
`Foo ↦ {valueString: "bar"}`, for C7. -/
def resultC7 : JValue :=
  .dict [("result", .dict [("contents", .list [.dict [("fields",
    .dict [("Foo", .dict [("valueString", .str "bar")])])]])])]

/-- C7: on a result of the shape `result.contents[0].fields = Foo ↦
{valueString: "bar"}` with no evidence, `extract_fields_with_locations`
returns exactly the one-element field list `Foo / "bar" / no regions`. -/
theorem claim_C7 :
    extract_fields_with_locations resultC7 = some [⟨"Foo", .str "bar", []⟩] := rfl

/-- C10: every rectangle drawn by `draw_regions_on_page` is the region's
bbox scaled coordinatewise by the independent factors image-width over
document-page-width and image-height over document-page-height, each factor
defaulting to 1 when the corresponding document dimension is unavailable. -/
theorem claim_C10 (W H : ℚ) (pageW pageH : Option ℚ) (regions : List Region)
    (hw : ∀ w, pageW = some w → w ≠ 0) (hh : ∀ h, pageH = some h → h ≠ 0) :
    draw_regions_rects W H regions pageW pageH =
      regions.map (fun r =>
        (r.bbox.1 * (match pageW with | some w => W / w | none => 1),
         r.bbox.2.1 * (match pageH with | some h => H / h | none => 1),
         r.bbox.2.2.1 * (match pageW with | some w => W / w | none => 1),
         r.bbox.2.2.2 * (match pageH with | some h => H / h | none => 1))) := by
  cases pageW with
  | none =>
    cases pageH with
    | none => simp [draw_regions_rects, scaleFactor, scaleRect]
    | some h0 => simp [draw_regions_rects, scaleFactor, scaleRect, hh h0 rfl]
  | some w =>
    cases pageH with
    | none => simp [draw_regions_rects, scaleFactor, scaleRect, hw w rfl]
    | some h0 => simp [draw_regions_rects, scaleFactor, scaleRect, hw w rfl, hh h0 rfl]

/-- Witness for C10: a bbox `(0,0,100,100)` on a 200 × 200 document page
rendered onto a 400 × 400 image is drawn at `(0,0,200,200)`. -/
theorem claim_C10_witness :
    draw_regions_rects 400 400 [⟨none, 1, none, (0, 0, 100, 100)⟩] (some 200) (some 200) =
      [(0, 0, 200, 200)] := by
  have h := claim_C10 400 400 (some 200) (some 200) [⟨none, 1, none, (0, 0, 100, 100)⟩]
    (fun w hw => by injection hw with h2; rw [← h2]; norm_num)
    (fun h0 hh0 => by injection hh0 with h2; rw [← h2]; norm_num)
  rw [h]
  norm_num [Region.bbox]

/-- The singleton pull of one provenance key from a mapping, when present. -/
def optPull (kvs : List (String × JValue)) (k : String) : List JValue :=
  if hasKey kvs k then [dGet kvs k] else []

/-- The three fixed-order pulls the evidence gatherer performs at a
mapping, before descending into the values. -/
def srcPullsOf (kvs : List (String × JValue)) : List JValue :=
  optPull kvs "source" ++ optPull kvs "sources" ++ optPull kvs "evidence"

/-- The dict case of the evidence gatherer, restated through `srcPullsOf`. -/
theorem gather_dict_eq (kvs : List (String × JValue)) :
    gather_sources_recursive (.dict kvs) = srcPullsOf kvs ++ gatherEntries kvs := by
  simp [gather_sources_recursive, srcPullsOf, optPull, List.append_assoc]

/-- Key membership on a cons cell of an association list. -/
theorem hasKey_cons (k k' : String) (v : JValue) (rest : List (String × JValue)) :
    hasKey ((k, v) :: rest) k' = (decide (k = k') || hasKey rest k') := by
  simp [hasKey]

/-- Lookup at the head key of an association list. -/
theorem dGet_cons_self {k k' : String} (h : k = k') (v : JValue)
    (rest : List (String × JValue)) : dGet ((k, v) :: rest) k' = v := by
  simp [dGet, findEntry, List.find?, h]

/-- Lookup skips a head entry with a different key. -/
theorem dGet_cons_ne {k k' : String} (h : ¬(k = k')) (v : JValue)
    (rest : List (String × JValue)) : dGet ((k, v) :: rest) k' = dGet rest k' := by
  simp [dGet, findEntry, List.find?, h]

/-- Pulling a key equal to the head key takes the head value. -/
theorem optPull_cons_self {k k' : String} (h : k = k') (v : JValue)
    (rest : List (String × JValue)) : optPull ((k, v) :: rest) k' = [v] := by
  simp [optPull, hasKey_cons, h, dGet_cons_self rfl]

/-- Pulling a key different from the head key skips the head entry. -/
theorem optPull_cons_ne {k k' : String} (h : ¬(k = k')) (v : JValue)
    (rest : List (String × JValue)) : optPull ((k, v) :: rest) k' = optPull rest k' := by
  simp [optPull, hasKey_cons, h, dGet_cons_ne h]

/-- Key membership through the key list of an association list. -/
theorem hasKey_eq_keys_any (rest : List (String × JValue)) (k : String) :
    hasKey rest k = (rest.map Prod.fst).any (fun a => decide (a = k)) := by
  induction rest with
  | nil => rfl
  | cons kv t ih => simp [hasKey, List.any_cons] at ih ⊢; rw [ih]

/-- Two leading blocks of an append may be exchanged up to permutation. -/
theorem perm_swap_blocks {α : Type} (A B C : List α) :
    (A ++ (B ++ C)).Perm (B ++ (A ++ C)) := by
  rw [← List.append_assoc, ← List.append_assoc]
  exact List.Perm.append_right C List.perm_append_comm

mutual

/-- The evidence gatherer collects, on well-formed values, exactly the
values the specification's insertion-order traversal collects, up to
order. -/
theorem gather_perm (v : JValue) (h : wfJ v = true) :
    (gather_sources_recursive v).Perm (gatherSpec v) := by
  cases v with
  | dict kvs =>
    simp only [wfJ, Bool.and_eq_true] at h
    rw [gather_dict_eq]
    show (srcPullsOf kvs ++ gatherEntries kvs).Perm (gatherSpec (.dict kvs))
    simp only [gatherSpec]
    exact entries_perm kvs h.1 h.2
  | list xs =>
    simp only [gather_sources_recursive, gatherSpec]
    exact gatherList_perm xs (by simpa [wfJ] using h)
  | null => simp [gather_sources_recursive, gatherSpec]
  | bool b => simp [gather_sources_recursive, gatherSpec]
  | num q => simp [gather_sources_recursive, gatherSpec]
  | str s => simp [gather_sources_recursive, gatherSpec]

/-- List part of the gatherer/spec permutation. -/
theorem gatherList_perm (xs : List JValue) (h : wfList xs = true) :
    (gatherList xs).Perm (gatherSpecList xs) := by
  cases xs with
  | nil => simp [gatherList, gatherSpecList]
  | cons x rest =>
    simp only [wfList, Bool.and_eq_true] at h
    simp only [gatherList, gatherSpecList]
    exact (gather_perm x h.1).append (gatherList_perm rest h.2)

/-- Entries part of the gatherer/spec permutation: the fixed-order pulls
followed by the children's results are a permutation of the insertion-order
interleaving, provided the mapping has no duplicate keys. -/
theorem entries_perm (kvs : List (String × JValue))
    (hnd : keysNodup (kvs.map Prod.fst) = true) (hwf : wfEntries kvs = true) :
    (srcPullsOf kvs ++ gatherEntries kvs).Perm (gatherSpecEntries kvs) := by
  cases kvs with
  | nil => simp [srcPullsOf, optPull, gatherEntries, gatherSpecEntries, hasKey]
  | cons kv rest =>
    obtain ⟨k, v⟩ := kv
    simp only [List.map_cons, keysNodup, Bool.and_eq_true, Bool.not_eq_true'] at hnd
    simp only [wfEntries, Bool.and_eq_true] at hwf
    have hkrest : hasKey rest k = false := by
      rw [hasKey_eq_keys_any]
      exact hnd.1
    have IH := entries_perm rest hnd.2 hwf.2
    have hchild : (if isContainer v then gather_sources_recursive v else []).Perm
        (if isContainer v then gatherSpec v else []) := by
      by_cases hc : isContainer v = true
      · simp only [hc, if_true]
        exact gather_perm v hwf.1
      · have hcf : isContainer v = false := by simpa using hc
        simp only [hcf, Bool.false_eq_true, if_false]
        exact List.Perm.refl []
    have tailStep : ((srcPullsOf rest ++
        ((if isContainer v then gather_sources_recursive v else []) ++
          gatherEntries rest))).Perm
        ((if isContainer v then gatherSpec v else []) ++ gatherSpecEntries rest) :=
      (perm_swap_blocks _ _ _).trans (hchild.append IH)
    simp only [gatherEntries, gatherSpecEntries]
    by_cases h1 : k = "source"
    · subst h1
      have e1 : srcPullsOf (("source", v) :: rest) = v :: srcPullsOf rest := by
        have h0 : optPull rest "source" = [] := by
          simp [optPull, hkrest]
        simp [srcPullsOf, optPull_cons_self rfl,
          optPull_cons_ne (show ¬("source" = "sources") by decide),
          optPull_cons_ne (show ¬("source" = "evidence") by decide), h0]
      have hmem : ("source" : String) ∈ srcKeyNames := by decide
      rw [e1, if_pos hmem]
      exact List.Perm.cons v tailStep
    · by_cases h2 : k = "sources"
      · subst h2
        have e1 : srcPullsOf (("sources", v) :: rest) =
            optPull rest "source" ++ (v :: optPull rest "evidence") := by
          simp [srcPullsOf, optPull_cons_self rfl,
            optPull_cons_ne (show ¬("sources" = "source") by decide),
            optPull_cons_ne (show ¬("sources" = "evidence") by decide)]
        have e2 : srcPullsOf rest =
            optPull rest "source" ++ optPull rest "evidence" := by
          have h0 : optPull rest "sources" = [] := by
            simp [optPull, hkrest]
          simp [srcPullsOf, h0]
        have hp : (srcPullsOf (("sources", v) :: rest)).Perm (v :: srcPullsOf rest) := by
          rw [e1, e2]
          simpa using
            @List.perm_middle JValue v (optPull rest "source") (optPull rest "evidence")
        have hmem : ("sources" : String) ∈ srcKeyNames := by decide
        rw [if_pos hmem]
        exact (hp.append (List.Perm.refl _)).trans (List.Perm.cons v tailStep)
      · by_cases h3 : k = "evidence"
        · subst h3
          have e1 : srcPullsOf (("evidence", v) :: rest) =
              optPull rest "source" ++ (optPull rest "sources" ++ [v]) := by
            simp [srcPullsOf, optPull_cons_self rfl,
              optPull_cons_ne (show ¬("evidence" = "source") by decide),
              optPull_cons_ne (show ¬("evidence" = "sources") by decide)]
          have e2 : srcPullsOf rest =
              optPull rest "source" ++ optPull rest "sources" := by
            have h0 : optPull rest "evidence" = [] := by
              simp [optPull, hkrest]
            simp [srcPullsOf, h0]
          have hp : (srcPullsOf (("evidence", v) :: rest)).Perm (v :: srcPullsOf rest) := by
            rw [e1, e2]
            simpa using
              @List.perm_middle JValue v
                (optPull rest "source" ++ optPull rest "sources") []
          have hmem : ("evidence" : String) ∈ srcKeyNames := by decide
          rw [if_pos hmem]
          exact (hp.append (List.Perm.refl _)).trans (List.Perm.cons v tailStep)
        · have e1 : srcPullsOf ((k, v) :: rest) = srcPullsOf rest := by
            simp [srcPullsOf, optPull_cons_ne h1, optPull_cons_ne h2, optPull_cons_ne h3]
          have hmem : ¬(k ∈ srcKeyNames) := by
            simp [srcKeyNames, h1, h2, h3]
          rw [e1, if_neg hmem]
          exact tailStep

end

/-- Mapping whose insertion order (`evidence` before `source`) differs from
the gatherer's fixed pull order, for the C8 counterexample. -/
def reorderedEvidence : JValue :=
  .dict [("evidence", .str "E"), ("source", .str "S")]

/-- Counterexample to C8 as stated: on a mapping listing `evidence` before
`source`, the gatherer emits the `source` value first (fixed key order
`source`, `sources`, `evidence`), not the mapping's insertion order, so the
order of discovery differs from the natural traversal order. -/
theorem claim_C8_counterexample :
    gather_sources_recursive reorderedEvidence = [.str "S", .str "E"] ∧
      gatherSpec reorderedEvidence = [.str "E", .str "S"] ∧
      gather_sources_recursive reorderedEvidence ≠ gatherSpec reorderedEvidence := by
  refine ⟨rfl, rfl, ?_⟩
  intro h
  rw [show gather_sources_recursive reorderedEvidence = [JValue.str "S", JValue.str "E"]
      from rfl,
    show gatherSpec reorderedEvidence = [JValue.str "E", JValue.str "S"] from rfl] at h
  injection h with h1 h2
  injection h1 with h3
  exact absurd h3 (by decide)

/-- C8 (amended): on every well-formed value (mappings with no duplicate
keys), the gatherer collects exactly the values collected by the
insertion-order traversal of the specification — every value under a
`source`, `sources` or `evidence` key at any depth, with multiplicity, not
stopping at the first match — but within each mapping it emits the three
provenance entries first, in that fixed key order, before the recursive
results of the mapping's values. -/
theorem claim_C8 (v : JValue) (h : wfJ v = true) :
    (gather_sources_recursive v).Perm (gatherSpec v) :=
  gather_perm v h

/-- Well-formed nested mapping for the C8 witness. -/
def nestedEvidence : JValue :=
  .dict [("a", .dict [("source", .str "X")]), ("source", .str "S")]

/-- Witness for C8 at a concrete nested mapping: the gatherer's output is a
permutation of the insertion-order traversal's output. -/
theorem claim_C8_witness :
    wfJ nestedEvidence = true ∧
      (gather_sources_recursive nestedEvidence).Perm (gatherSpec nestedEvidence) :=
  ⟨rfl, claim_C8 nestedEvidence rfl⟩

/-- Package of the label/confidence extraction a matching mapping gets in
`_find_first_category`, lifted to a JSON-like value. -/
def catPullM : JValue → Option (String × Option ℚ)
  | .dict kvs => catPull kvs
  | _ => none

/-- A mapping yields no label/confidence pair exactly when it carries no
`category` or `label` string key. -/
theorem catPull_none_iff (kvs : List (String × JValue)) :
    catPull kvs = none ↔ catMatch kvs = false := by
  unfold catPull catMatch
  cases findEntry kvs "category" with
  | none =>
    cases findEntry kvs "label" with
    | none => simp
    | some v => cases v <;> simp
  | some v =>
    cases v with
    | str s => simp
    | null =>
      cases findEntry kvs "label" with
      | none => simp
      | some w => cases w <;> simp
    | bool b =>
      cases findEntry kvs "label" with
      | none => simp
      | some w => cases w <;> simp
    | num q =>
      cases findEntry kvs "label" with
      | none => simp
      | some w => cases w <;> simp
    | list xs =>
      cases findEntry kvs "label" with
      | none => simp
      | some w => cases w <;> simp
    | dict d =>
      cases findEntry kvs "label" with
      | none => simp
      | some w => cases w <;> simp

mutual

/-- Every mapping found by the specification-worded pre-order search
carries a `category` or `label` string key. -/
theorem specFirstCat_match (v : JValue) :
    ∀ m, specFirstCat v = some m → ∃ kvs2, m = .dict kvs2 ∧ catMatch kvs2 = true := by
  intro m h
  cases v with
  | dict kvs =>
    by_cases hc : catMatch kvs = true
    · simp only [specFirstCat, hc, if_true, Option.some.injEq] at h
      exact ⟨kvs, h.symm, hc⟩
    · have hcf : catMatch kvs = false := by simpa using hc
      simp only [specFirstCat, hcf, Bool.false_eq_true, if_false] at h
      exact sfcEntries_match kvs m h
  | list xs =>
    simp only [specFirstCat] at h
    exact sfcList_match xs m h
  | null => simp [specFirstCat] at h
  | bool b => simp [specFirstCat] at h
  | num q => simp [specFirstCat] at h
  | str s => simp [specFirstCat] at h

/-- List part of `specFirstCat_match`. -/
theorem sfcList_match (xs : List JValue) :
    ∀ m, sfcList xs = some m → ∃ kvs2, m = .dict kvs2 ∧ catMatch kvs2 = true := by
  intro m h
  cases xs with
  | nil => simp [sfcList] at h
  | cons x rest =>
    simp only [sfcList] at h
    cases hs : specFirstCat x with
    | none =>
      rw [hs] at h
      exact sfcList_match rest m h
    | some m2 =>
      rw [hs] at h
      simp only [Option.some.injEq] at h
      obtain ⟨kvs2, he, hm⟩ := specFirstCat_match x m2 hs
      exact ⟨kvs2, by rw [← h, he], hm⟩

/-- Entries part of `specFirstCat_match`. -/
theorem sfcEntries_match (kvs : List (String × JValue)) :
    ∀ m, sfcEntries kvs = some m → ∃ kvs2, m = .dict kvs2 ∧ catMatch kvs2 = true := by
  intro m h
  cases kvs with
  | nil => simp [sfcEntries] at h
  | cons kv rest =>
    simp only [sfcEntries] at h
    cases hs : specFirstCat kv.2 with
    | none =>
      rw [hs] at h
      exact sfcEntries_match rest m h
    | some m2 =>
      rw [hs] at h
      simp only [Option.some.injEq] at h
      obtain ⟨kvs2, he, hm⟩ := specFirstCat_match kv.2 m2 hs
      exact ⟨kvs2, by rw [← h, he], hm⟩

end

mutual

/-- `_find_first_category` agrees with the specification-worded pre-order
search: it returns exactly the label/confidence package of the first
category-bearing mapping, and `none` when there is none. -/
theorem ffc_eq_spec (v : JValue) :
    find_first_category v = (specFirstCat v).bind catPullM := by
  cases v with
  | dict kvs =>
    by_cases hc : catMatch kvs = true
    · cases hp : catPull kvs with
      | none =>
        rw [catPull_none_iff] at hp
        rw [hp] at hc
        simp at hc
      | some p =>
        simp [find_first_category, specFirstCat, hc, hp, catPullM]
    · have hcf : catMatch kvs = false := by simpa using hc
      have hp : catPull kvs = none := (catPull_none_iff kvs).mpr hcf
      simp only [find_first_category, specFirstCat, hp, hcf, Bool.false_eq_true, if_false]
      exact ffcEntries_eq_spec kvs
  | list xs =>
    simp only [find_first_category, specFirstCat]
    exact ffcList_eq_spec xs
  | null => simp [find_first_category, specFirstCat, catPullM]
  | bool b => simp [find_first_category, specFirstCat, catPullM]
  | num q => simp [find_first_category, specFirstCat, catPullM]
  | str s => simp [find_first_category, specFirstCat, catPullM]

/-- List part of `ffc_eq_spec`. -/
theorem ffcList_eq_spec (xs : List JValue) :
    ffcList xs = (sfcList xs).bind catPullM := by
  cases xs with
  | nil => simp [ffcList, sfcList]
  | cons x rest =>
    have hx := ffc_eq_spec x
    cases hs : specFirstCat x with
    | none =>
      rw [hs] at hx
      simp only [Option.none_bind] at hx
      simp only [ffcList, sfcList, hs, hx]
      exact ffcList_eq_spec rest
    | some m =>
      obtain ⟨kvs2, he, hm⟩ := specFirstCat_match x m hs
      cases hp : catPull kvs2 with
      | none =>
        rw [catPull_none_iff] at hp
        rw [hp] at hm
        simp at hm
      | some p =>
        rw [hs, he] at hx
        simp only [Option.some_bind, catPullM, hp] at hx
        simp only [ffcList, sfcList, hs, hx, he, Option.some_bind, catPullM, hp]

/-- Entries part of `ffc_eq_spec`. -/
theorem ffcEntries_eq_spec (kvs : List (String × JValue)) :
    ffcEntries kvs = (sfcEntries kvs).bind catPullM := by
  cases kvs with
  | nil => simp [ffcEntries, sfcEntries]
  | cons kv rest =>
    have hx := ffc_eq_spec kv.2
    cases hs : specFirstCat kv.2 with
    | none =>
      rw [hs] at hx
      simp only [Option.none_bind] at hx
      have e1 : ffcEntries (kv :: rest) = ffcEntries rest := by
        cases kv with
        | mk k v => simp only [ffcEntries, hx]
      have e2 : sfcEntries (kv :: rest) = sfcEntries rest := by
        cases kv with
        | mk k v => simp only [sfcEntries, hs]
      rw [e1, e2]
      exact ffcEntries_eq_spec rest
    | some m =>
      obtain ⟨kvs2, he, hm⟩ := specFirstCat_match kv.2 m hs
      cases hp : catPull kvs2 with
      | none =>
        rw [catPull_none_iff] at hp
        rw [hp] at hm
        simp at hm
      | some p =>
        rw [hs] at hx
        rw [he] at hx
        simp only [Option.some_bind, catPullM, hp] at hx
        have e1 : ffcEntries (kv :: rest) = some p := by
          cases kv with
          | mk k v => simp only [ffcEntries, hx]
        have e2 : sfcEntries (kv :: rest) = some m := by
          cases kv with
          | mk k v => simp only [sfcEntries, hs]
        rw [e1, e2, he]
        simp only [Option.some_bind, catPullM, hp]

end

/-- Entries of the concrete category-bearing mapping of claim C9. -/
def kvsC9 : List (String × JValue) :=
  [("category", .str "Invoices"), ("confidence", .num (92 / 100))]

/-- The concrete category-bearing mapping of claim C9. -/
def invoicesCat : JValue :=
  .dict kvsC9

/-- C9: when the first category-bearing mapping of the classification
result, in natural pre-order traversal order, is exactly
`category = "Invoices"`, `confidence = 0.92`, `parse_classifier_output`
returns the pair `("Invoices", 0.92)`; when no mapping anywhere carries a
`category` or `label` string key, it returns `(None, None)`. -/
theorem claim_C9 (result : JValue) :
    (specFirstCat result = some invoicesCat →
      parse_classifier_output result = (some "Invoices", some (92 / 100 : ℚ))) ∧
      (specFirstCat result = none → parse_classifier_output result = (none, none)) := by
  have hagree := ffc_eq_spec result
  constructor
  · intro h
    rw [h] at hagree
    have ht : truthy (JValue.num (92 / 100)) = true :=
      decide_eq_true (by norm_num)
    have hlc : catPullM invoicesCat = some ("Invoices", some (92 / 100 : ℚ)) := by
      simp only [invoicesCat, catPullM, catPull,
        show findEntry kvsC9 "category" = some (JValue.str "Invoices") from rfl, confOf,
        show dGet kvsC9 "confidence" = JValue.num (92 / 100) from rfl, pyOr, ht, if_true,
        pyFloatJ]
    simp only [Option.some_bind] at hagree
    rw [hlc] at hagree
    unfold parse_classifier_output
    rw [hagree]
  · intro h
    rw [h] at hagree
    simp only [Option.none_bind] at hagree
    unfold parse_classifier_output
    rw [hagree]

/-- Classification result with the C9 mapping nested one level deep. -/
def classifierResultC9 : JValue :=
  .dict [("a", invoicesCat)]

/-- Classification result with no category-bearing mapping anywhere. -/
def noCatResultC9 : JValue :=
  .str "nothing"

/-- Witness for C9 at a concrete nested classification result and at a
concrete result carrying no category at all. -/
theorem claim_C9_witness :
    parse_classifier_output classifierResultC9 = (some "Invoices", some (92 / 100 : ℚ)) ∧
      parse_classifier_output noCatResultC9 = (none, none) :=
  ⟨(claim_C9 classifierResultC9).1 rfl, (claim_C9 noCatResultC9).2 rfl⟩
